import Mathlib

/-!
Verification of the line-diff core and diff-extraction helpers of the
opencode-log-viewer repository.

The JavaScript functions `computeLineDiff`, `renderInlineDiff`,
`toggleDiffInTimeline` (its patch-building tail) and
`extractDiffsFromMessages` are embedded shallowly below.  Loops with a
decreasing measure are written as structurally recursive functions with an
explicit budget equal to the measure at entry (the backtracking loop of
`computeLineDiff` decreases `i + j` on every iteration, so a budget of
`i + j` reproduces the loop exactly); a congruence lemma shows the budget is
irrelevant above the measure.
-/

namespace LogViewer

/-- The `type` tag of one diff output item: `'equal' | 'added' | 'deleted'`. -/
inductive OpType
  | equal
  | added
  | deleted
deriving DecidableEq, Repr

/-- One element of `computeLineDiff`'s result array:
`{ type, line, oldLineNum?, newLineNum? }`.  Absent fields are `none`. -/
structure LineOp where
  type : OpType
  line : String
  oldLineNum : Option Nat
  newLineNum : Option Nat
deriving DecidableEq, Repr

/-- The LCS table of `computeLineDiff`, with an explicit recursion budget:
`dpAux b a fuel i j` is the table entry `dp[i][j]` provided `i + j ≤ fuel`.
The table is defined by `dp[0][*] = dp[*][0] = 0` and, as in the source,
`dp[i][j] = dp[i-1][j-1] + 1` when `before[i-1] === after[j-1]` and
`max(dp[i-1][j], dp[i][j-1])` otherwise. -/
def dpAux (b a : List String) : Nat → Nat → Nat → Nat
  | 0, _, _ => 0
  | _ + 1, 0, _ => 0
  | _ + 1, _ + 1, 0 => 0
  | fuel + 1, i + 1, j + 1 =>
      if b.getD i "" = a.getD j "" then
        dpAux b a fuel i j + 1
      else
        max (dpAux b a fuel i (j + 1)) (dpAux b a fuel (i + 1) j)

/-- `dp b a i j` is entry `dp[i][j]` of the table filled by `computeLineDiff`. -/
def dp (b a : List String) (i j : Nat) : Nat :=
  dpAux b a (i + j) i j

/-- The budget of `dpAux` is irrelevant once it bounds `i + j`. -/
theorem dpAux_congr (b a : List String) :
    ∀ fuel fuel' i j, i + j ≤ fuel → i + j ≤ fuel' →
      dpAux b a fuel i j = dpAux b a fuel' i j := by
  intro fuel
  induction fuel with
  | zero =>
      intro fuel' i j h _
      have hi : i = 0 := by omega
      subst hi
      cases fuel' <;> rfl
  | succ n ih =>
      intro fuel' i j h h'
      cases i with
      | zero => cases fuel' <;> rfl
      | succ i' =>
          cases j with
          | zero =>
              cases fuel' with
              | zero => omega
              | succ m => rfl
          | succ j' =>
              cases fuel' with
              | zero => omega
              | succ m =>
                  show dpAux b a (n + 1) (i' + 1) (j' + 1)
                      = dpAux b a (m + 1) (i' + 1) (j' + 1)
                  rw [dpAux, dpAux]
                  by_cases hbe : b.getD i' "" = a.getD j' ""
                  · rw [if_pos hbe, if_pos hbe, ih m i' j' (by omega) (by omega)]
                  · rw [if_neg hbe, if_neg hbe,
                      ih m i' (j' + 1) (by omega) (by omega),
                      ih m (i' + 1) j' (by omega) (by omega)]

theorem dp_zero_left (b a : List String) (j : Nat) : dp b a 0 j = 0 := by
  unfold dp
  cases h : (0 + j) with
  | zero => rfl
  | succ n => rfl

theorem dp_zero_right (b a : List String) (i : Nat) : dp b a i 0 = 0 := by
  unfold dp
  cases i <;> rfl

/-- The recurrence of the table fill, stated on `dp`. -/
theorem dp_succ_succ (b a : List String) (i j : Nat) :
    dp b a (i + 1) (j + 1) =
      if b.getD i "" = a.getD j "" then dp b a i j + 1
      else max (dp b a i (j + 1)) (dp b a (i + 1) j) := by
  show dpAux b a (i + 1 + (j + 1)) (i + 1) (j + 1) = _
  have : i + 1 + (j + 1) = (i + j + 1) + 1 := by omega
  rw [this, dpAux]
  by_cases hbe : b.getD i "" = a.getD j ""
  · rw [if_pos hbe, if_pos hbe,
      dpAux_congr b a (i + j + 1) (i + j) i j (by omega) (by omega)]
    rfl
  · rw [if_neg hbe, if_neg hbe,
      dpAux_congr b a (i + j + 1) (i + (j + 1)) i (j + 1) (by omega) (by omega),
      dpAux_congr b a (i + j + 1) ((i + 1) + j) (i + 1) j (by omega) (by omega)]
    rfl

/-- The backtracking loop of `computeLineDiff`, with an explicit budget:
starting at `(i, j)` the loop runs while `i > 0 || j > 0`, pushing an op and
decreasing `i + j` on every iteration, so a budget of `i + j` reproduces it.
Branches, conditions and pushed objects are those of the source. -/
def backtrackAux (b a : List String) : Nat → Nat → Nat → List LineOp
  | 0, _, _ => []
  | fuel + 1, i, j =>
      if 0 < i ∧ 0 < j ∧ b.getD (i - 1) "" = a.getD (j - 1) "" then
        ⟨.equal, b.getD (i - 1) "", some i, some j⟩ ::
          backtrackAux b a fuel (i - 1) (j - 1)
      else if 0 < j ∧ (i = 0 ∨ dp b a (i - 1) j ≤ dp b a i (j - 1)) then
        ⟨.added, a.getD (j - 1) "", none, some j⟩ ::
          backtrackAux b a fuel i (j - 1)
      else if 0 < i then
        ⟨.deleted, b.getD (i - 1) "", some i, none⟩ ::
          backtrackAux b a fuel (i - 1) j
      else []

/-- The backtracking loop started at `(i, j)` (ops in reversed order, as the
source pushes them before the final `reverse`). -/
def backtrack (b a : List String) (i j : Nat) : List LineOp :=
  backtrackAux b a (i + j) i j

theorem backtrackAux_zero_zero (b a : List String) :
    ∀ fuel, backtrackAux b a fuel 0 0 = [] := by
  intro fuel
  cases fuel with
  | zero => rfl
  | succ n =>
      rw [backtrackAux]
      have h1 : ¬(0 < 0 ∧ 0 < 0 ∧ b.getD (0 - 1) "" = a.getD (0 - 1) "") := by
        intro h; exact absurd h.1 (by omega)
      have h2 : ¬(0 < 0 ∧ ((0 : Nat) = 0 ∨ dp b a (0 - 1) 0 ≤ dp b a 0 (0 - 1))) := by
        intro h; exact absurd h.1 (by omega)
      rw [if_neg h1, if_neg h2, if_neg (by omega)]

/-- The budget of `backtrackAux` is irrelevant once it bounds `i + j`. -/
theorem backtrackAux_congr (b a : List String) :
    ∀ fuel fuel' i j, i + j ≤ fuel → i + j ≤ fuel' →
      backtrackAux b a fuel i j = backtrackAux b a fuel' i j := by
  intro fuel
  induction fuel with
  | zero =>
      intro fuel' i j h _
      have hi : i = 0 := by omega
      have hj : j = 0 := by omega
      subst hi; subst hj
      rw [backtrackAux_zero_zero, backtrackAux_zero_zero]
  | succ n ih =>
      intro fuel' i j h h'
      cases fuel' with
      | zero =>
          have hi : i = 0 := by omega
          have hj : j = 0 := by omega
          subst hi; subst hj
          rw [backtrackAux_zero_zero, backtrackAux_zero_zero]
      | succ m =>
          rw [backtrackAux, backtrackAux]
          by_cases h1 : 0 < i ∧ 0 < j ∧ b.getD (i - 1) "" = a.getD (j - 1) ""
          · rw [if_pos h1, if_pos h1, ih m (i - 1) (j - 1) (by omega) (by omega)]
          · rw [if_neg h1, if_neg h1]
            by_cases h2 : 0 < j ∧ (i = 0 ∨ dp b a (i - 1) j ≤ dp b a i (j - 1))
            · rw [if_pos h2, if_pos h2, ih m i (j - 1) (by omega) (by omega)]
            · rw [if_neg h2, if_neg h2]
              by_cases h3 : 0 < i
              · rw [if_pos h3, if_pos h3, ih m (i - 1) j (by omega) (by omega)]
              · rw [if_neg h3, if_neg h3]

/-- One-step unfolding of the backtracking loop, on `backtrack` itself. -/
theorem backtrack_eq (b a : List String) (i j : Nat) :
    backtrack b a i j =
      if 0 < i ∧ 0 < j ∧ b.getD (i - 1) "" = a.getD (j - 1) "" then
        ⟨.equal, b.getD (i - 1) "", some i, some j⟩ :: backtrack b a (i - 1) (j - 1)
      else if 0 < j ∧ (i = 0 ∨ dp b a (i - 1) j ≤ dp b a i (j - 1)) then
        ⟨.added, a.getD (j - 1) "", none, some j⟩ :: backtrack b a i (j - 1)
      else if 0 < i then
        ⟨.deleted, b.getD (i - 1) "", some i, none⟩ :: backtrack b a (i - 1) j
      else [] := by
  show backtrackAux b a (i + j) i j = _
  cases hs : i + j with
  | zero =>
      have hi : i = 0 := by omega
      have hj : j = 0 := by omega
      subst hi; subst hj
      rw [if_neg (by intro h; exact absurd h.1 (by omega)),
        if_neg (by intro h; exact absurd h.1 (by omega)),
        if_neg (by omega)]
      rfl
  | succ n =>
      rw [backtrackAux]
      by_cases h1 : 0 < i ∧ 0 < j ∧ b.getD (i - 1) "" = a.getD (j - 1) ""
      · rw [if_pos h1, if_pos h1,
          backtrackAux_congr b a n ((i - 1) + (j - 1)) (i - 1) (j - 1)
            (by omega) (by omega)]
        rfl
      · rw [if_neg h1, if_neg h1]
        by_cases h2 : 0 < j ∧ (i = 0 ∨ dp b a (i - 1) j ≤ dp b a i (j - 1))
        · rw [if_pos h2, if_pos h2,
            backtrackAux_congr b a n (i + (j - 1)) i (j - 1) (by omega) (by omega)]
          rfl
        · rw [if_neg h2, if_neg h2]
          by_cases h3 : 0 < i
          · rw [if_pos h3, if_pos h3,
              backtrackAux_congr b a n ((i - 1) + j) (i - 1) j (by omega) (by omega)]
            rfl
          · rw [if_neg h3, if_neg h3]

/-- `computeLineDiff(beforeLines, afterLines)`: fill the LCS table, backtrack
from `(m, n)` and reverse the collected ops. -/
def computeLineDiff (beforeLines afterLines : List String) : List LineOp :=
  (backtrack beforeLines afterLines beforeLines.length afterLines.length).reverse

theorem take_reverse_getD {α : Type} [Inhabited α] (l : List α) (k : Nat)
    (h : k < l.length) :
    (l.take (k + 1)).reverse = l.getD k default :: (l.take k).reverse := by
  rw [List.take_succ, List.getElem?_eq_getElem h, List.reverse_append]
  simp [List.getD, List.getElem?_eq_getElem h]

/-- Backtracking from `(i, j)` emits, among the ops that are not Added, exactly
the first `i` lines of `before` (in reversed order, since the loop pushes
back-to-front), and among the ops that are not Deleted exactly the first `j`
lines of `after`. -/
theorem backtrack_restore (b a : List String) :
    ∀ n i j, i + j ≤ n → i ≤ b.length → j ≤ a.length →
      (((backtrack b a i j).filter fun o => o.type != OpType.added).map
          LineOp.line = (b.take i).reverse)
      ∧ (((backtrack b a i j).filter fun o => o.type != OpType.deleted).map
          LineOp.line = (a.take j).reverse) := by
  intro n
  induction n with
  | zero =>
      intro i j hn hi hj
      have h0 : i = 0 := by omega
      have h0' : j = 0 := by omega
      subst h0; subst h0'
      rw [show backtrack b a 0 0 = [] from backtrackAux_zero_zero b a 0]
      simp
  | succ n ih =>
      intro i j hn hi hj
      rw [backtrack_eq]
      by_cases h1 : 0 < i ∧ 0 < j ∧ b.getD (i - 1) "" = a.getD (j - 1) ""
      · obtain ⟨hip, hjp, heq⟩ := h1
        rw [if_pos ⟨hip, hjp, heq⟩]
        obtain ⟨ihb, iha⟩ := ih (i - 1) (j - 1) (by omega) (by omega) (by omega)
        constructor
        · rw [List.filter_cons_of_pos (by rfl), List.map_cons, ihb]
          have : i = (i - 1) + 1 := by omega
          rw [this, take_reverse_getD b (i - 1) (by omega)]
          rfl
        · rw [List.filter_cons_of_pos (by rfl), List.map_cons, iha]
          have : j = (j - 1) + 1 := by omega
          rw [this, take_reverse_getD a (j - 1) (by omega), heq]
          rfl
      · rw [if_neg h1]
        by_cases h2 : 0 < j ∧ (i = 0 ∨ dp b a (i - 1) j ≤ dp b a i (j - 1))
        · rw [if_pos h2]
          obtain ⟨ihb, iha⟩ := ih i (j - 1) (by omega) (by omega) (by omega)
          constructor
          · rw [List.filter_cons_of_neg (by simp), ihb]
          · rw [List.filter_cons_of_pos (by rfl), List.map_cons, iha]
            have : j = (j - 1) + 1 := by omega
            rw [this, take_reverse_getD a (j - 1) (by omega)]
            rfl
        · rw [if_neg h2]
          by_cases h3 : 0 < i
          · rw [if_pos h3]
            obtain ⟨ihb, iha⟩ := ih (i - 1) j (by omega) (by omega) (by omega)
            constructor
            · rw [List.filter_cons_of_pos (by rfl), List.map_cons, ihb]
              have : i = (i - 1) + 1 := by omega
              rw [this, take_reverse_getD b (i - 1) (by omega)]
              rfl
            · rw [List.filter_cons_of_neg (by simp), iha]
          · rw [if_neg h3]
            have h0 : i = 0 := by omega
            have h0' : j = 0 := by
              by_contra hne
              exact h2 ⟨by omega, Or.inl h0⟩
            subst h0; subst h0'
            simp

/-- C1: concatenating the `line` of the ops that are not Added reproduces
`before` exactly, and the ops that are not Deleted reproduce `after`. -/
theorem computeLineDiff_restores (b a : List String) :
    (((computeLineDiff b a).filter fun o => o.type != OpType.added).map
        LineOp.line = b)
    ∧ (((computeLineDiff b a).filter fun o => o.type != OpType.deleted).map
        LineOp.line = a) := by
  obtain ⟨hb, ha⟩ := backtrack_restore b a (b.length + a.length)
    b.length a.length (le_refl _) (le_refl _) (le_refl _)
  unfold computeLineDiff
  constructor
  · rw [List.filter_reverse, List.map_reverse, hb, List.take_length,
      List.reverse_reverse]
  · rw [List.filter_reverse, List.map_reverse, ha, List.take_length,
      List.reverse_reverse]

/-- In backtracking (reversed) order the old line numbers carried by the
emitted ops are strictly decreasing and bounded by `i`, and the new line
numbers strictly decreasing and bounded by `j`. -/
theorem backtrack_lineNums (b a : List String) :
    ∀ n i j, i + j ≤ n →
      (((backtrack b a i j).filterMap LineOp.oldLineNum).Pairwise (· > ·)
        ∧ ∀ x ∈ (backtrack b a i j).filterMap LineOp.oldLineNum, x ≤ i)
      ∧ (((backtrack b a i j).filterMap LineOp.newLineNum).Pairwise (· > ·)
        ∧ ∀ x ∈ (backtrack b a i j).filterMap LineOp.newLineNum, x ≤ j) := by
  intro n
  induction n with
  | zero =>
      intro i j hn
      have h0 : i = 0 := by omega
      have h0' : j = 0 := by omega
      subst h0; subst h0'
      rw [show backtrack b a 0 0 = [] from backtrackAux_zero_zero b a 0]
      simp
  | succ n ih =>
      intro i j hn
      rw [backtrack_eq]
      by_cases h1 : 0 < i ∧ 0 < j ∧ b.getD (i - 1) "" = a.getD (j - 1) ""
      · rw [if_pos h1]
        obtain ⟨⟨po, bo⟩, pn, bn⟩ := ih (i - 1) (j - 1) (by omega)
        refine ⟨⟨?_, ?_⟩, ?_, ?_⟩
        · simp only [List.filterMap_cons]
          exact List.Pairwise.cons (fun x hx => by have := bo x hx; omega) po
        · simp only [List.filterMap_cons]
          intro x hx
          rcases hx with _ | hx
          · omega
          · have := bo x (by assumption); omega
        · simp only [List.filterMap_cons]
          exact List.Pairwise.cons (fun x hx => by have := bn x hx; omega) pn
        · simp only [List.filterMap_cons]
          intro x hx
          rcases hx with _ | hx
          · omega
          · have := bn x (by assumption); omega
      · rw [if_neg h1]
        by_cases h2 : 0 < j ∧ (i = 0 ∨ dp b a (i - 1) j ≤ dp b a i (j - 1))
        · rw [if_pos h2]
          obtain ⟨⟨po, bo⟩, pn, bn⟩ := ih i (j - 1) (by omega)
          refine ⟨⟨?_, ?_⟩, ?_, ?_⟩
          · simp only [List.filterMap_cons]
            exact po
          · simp only [List.filterMap_cons]
            exact bo
          · simp only [List.filterMap_cons]
            exact List.Pairwise.cons (fun x hx => by have := bn x hx; omega) pn
          · simp only [List.filterMap_cons]
            intro x hx
            rcases hx with _ | hx
            · omega
            · have := bn x (by assumption); omega
        · rw [if_neg h2]
          by_cases h3 : 0 < i
          · rw [if_pos h3]
            obtain ⟨⟨po, bo⟩, pn, bn⟩ := ih (i - 1) j (by omega)
            refine ⟨⟨?_, ?_⟩, ?_, ?_⟩
            · simp only [List.filterMap_cons]
              exact List.Pairwise.cons (fun x hx => by have := bo x hx; omega) po
            · simp only [List.filterMap_cons]
              intro x hx
              rcases hx with _ | hx
              · omega
              · have := bo x (by assumption); omega
            · simp only [List.filterMap_cons]
              exact pn
            · simp only [List.filterMap_cons]
              exact bn
          · rw [if_neg h3]
            simp

/-- C7: in the output of `computeLineDiff`, the `oldLineNum` values of the
ops that carry one are strictly increasing in emission order, and likewise
the `newLineNum` values. -/
theorem computeLineDiff_lineNums_increasing (b a : List String) :
    ((computeLineDiff b a).filterMap LineOp.oldLineNum).Pairwise (· < ·)
    ∧ ((computeLineDiff b a).filterMap LineOp.newLineNum).Pairwise (· < ·) := by
  obtain ⟨⟨po, -⟩, pn, -⟩ := backtrack_lineNums b a (b.length + a.length)
    b.length a.length (le_refl _)
  unfold computeLineDiff
  constructor
  · rw [List.filterMap_reverse, List.pairwise_reverse]
    exact po
  · rw [List.filterMap_reverse, List.pairwise_reverse]
    exact pn

/-- Independent reference definition of the length of the longest common
subsequence, by structural recursion on the fronts of the two lists (the
source's table peels elements from the back instead). -/
def lcsLength : List String → List String → Nat
  | [], _ => 0
  | _ :: _, [] => 0
  | x :: xs, y :: ys =>
      if x = y then lcsLength xs ys + 1
      else max (lcsLength xs (y :: ys)) (lcsLength (x :: xs) ys)
termination_by l1 l2 => l1.length + l2.length
decreasing_by
  all_goals simp only [List.length_cons]
  all_goals omega

theorem lcsLength_nil_left (l : List String) : lcsLength [] l = 0 := by
  rw [lcsLength]

theorem lcsLength_nil_right (l : List String) : lcsLength l [] = 0 := by
  cases l <;> rw [lcsLength]

theorem lcsLength_cons_cons (x y : String) (xs ys : List String) :
    lcsLength (x :: xs) (y :: ys) =
      if x = y then lcsLength xs ys + 1
      else max (lcsLength xs (y :: ys)) (lcsLength (x :: xs) ys) := by
  rw [lcsLength]

theorem lcsLength_singleton_left (x : String) (l : List String) :
    lcsLength [x] l = if x ∈ l then 1 else 0 := by
  induction l with
  | nil => rw [lcsLength_nil_right]; simp
  | cons y ys ih =>
      rw [lcsLength_cons_cons, lcsLength_nil_left, lcsLength_nil_left, ih]
      simp only [List.mem_cons]
      by_cases hxy : x = y
      · simp [hxy]
      · by_cases hmem : x ∈ ys
        · simp only [hxy, hmem, if_true, if_false, false_or, if_true]
          omega
        · simp only [hxy, hmem, if_false, false_or]
          omega

theorem lcsLength_singleton_right (y : String) (l : List String) :
    lcsLength l [y] = if y ∈ l then 1 else 0 := by
  induction l with
  | nil => rw [lcsLength_nil_left]; simp
  | cons x xs ih =>
      rw [lcsLength_cons_cons, lcsLength_nil_right, lcsLength_nil_right, ih]
      simp only [List.mem_cons]
      by_cases hxy : x = y
      · have hyx : y = x := hxy.symm
        rw [if_pos hxy, if_pos (Or.inl hyx)]
      · have hyx : ¬ y = x := fun hh => hxy hh.symm
        by_cases hmem : y ∈ xs
        · simp only [hxy, hyx, hmem, if_true, if_false, false_or, if_true]
          omega
        · simp only [hxy, hyx, hmem, if_false, false_or]
          omega

/-- The back-recurrence of `lcsLength`: appending one element to each list
satisfies the same case split as the source's table fill. -/
theorem lcsLength_append_singleton :
    ∀ n (xs ys : List String) (x y : String), xs.length + ys.length ≤ n →
      lcsLength (xs ++ [x]) (ys ++ [y]) =
        if x = y then lcsLength xs ys + 1
        else max (lcsLength xs (ys ++ [y])) (lcsLength (xs ++ [x]) ys) := by
  intro n
  induction n with
  | zero =>
      intro xs ys x y h
      have hx : xs = [] := by
        cases xs with
        | nil => rfl
        | cons u us => simp at h
      have hy : ys = [] := by
        cases ys with
        | nil => rfl
        | cons v vs => simp at h
      subst hx; subst hy
      simp only [List.nil_append]
      rw [lcsLength_cons_cons]
  | succ n ih =>
      intro xs ys x y h
      cases xs with
      | nil =>
          simp only [List.nil_append]
          rw [lcsLength_singleton_left, lcsLength_nil_left, lcsLength_nil_left,
            lcsLength_singleton_left]
          simp only [List.mem_append, List.mem_singleton]
          by_cases hxy : x = y
          · simp [hxy]
          · by_cases hmem : x ∈ ys
            · simp only [hxy, hmem, if_true, if_false, true_or, if_true]
              omega
            · simp only [hxy, hmem, if_false, or_self]
              omega
      | cons u us =>
          cases ys with
          | nil =>
              simp only [List.nil_append]
              rw [lcsLength_singleton_right, lcsLength_nil_right,
                lcsLength_singleton_right, lcsLength_nil_right]
              simp only [List.mem_append, List.mem_singleton]
              by_cases hxy : x = y
              · have hyx : y = x := hxy.symm
                rw [if_pos (Or.inr hyx), if_pos hxy]
              · have hyx : ¬ y = x := fun hh => hxy hh.symm
                by_cases hmem : y ∈ u :: us
                · simp only [hxy, hyx, hmem, if_true, if_false, true_or, if_true]
                  omega
                · simp only [hxy, hyx, hmem, if_false, or_self]
                  omega
          | cons v vs =>
              simp only [List.cons_append]
              by_cases huv : u = v
              · subst huv
                have e0 : lcsLength (u :: (us ++ [x])) (u :: (vs ++ [y]))
                    = lcsLength (us ++ [x]) (vs ++ [y]) + 1 := by
                  rw [lcsLength_cons_cons, if_pos rfl]
                have e1 := ih us vs x y (by
                  simp only [List.length_cons] at h; omega)
                have e2 : lcsLength (u :: us) (u :: vs)
                    = lcsLength us vs + 1 := by
                  rw [lcsLength_cons_cons, if_pos rfl]
                have e3 : lcsLength (u :: us) (u :: (vs ++ [y]))
                    = lcsLength us (vs ++ [y]) + 1 := by
                  rw [lcsLength_cons_cons, if_pos rfl]
                have e4 : lcsLength (u :: (us ++ [x])) (u :: vs)
                    = lcsLength (us ++ [x]) vs + 1 := by
                  rw [lcsLength_cons_cons, if_pos rfl]
                rw [e0, e1, e2, e3, e4]
                by_cases hxy : x = y
                · rw [if_pos hxy, if_pos hxy]
                · rw [if_neg hxy, if_neg hxy]
                  omega
              · have e0 : lcsLength (u :: (us ++ [x])) (v :: (vs ++ [y]))
                    = max (lcsLength (us ++ [x]) (v :: (vs ++ [y])))
                        (lcsLength (u :: (us ++ [x])) (vs ++ [y])) := by
                  rw [lcsLength_cons_cons, if_neg huv]
                have e1 := ih us (v :: vs) x y (by
                  simp only [List.length_cons] at h ⊢; omega)
                simp only [List.cons_append] at e1
                have e2 := ih (u :: us) vs x y (by
                  simp only [List.length_cons] at h ⊢; omega)
                simp only [List.cons_append] at e2
                have e3 : lcsLength (u :: us) (v :: vs)
                    = max (lcsLength us (v :: vs)) (lcsLength (u :: us) vs) := by
                  rw [lcsLength_cons_cons, if_neg huv]
                have e4 : lcsLength (u :: us) (v :: (vs ++ [y]))
                    = max (lcsLength us (v :: (vs ++ [y])))
                        (lcsLength (u :: us) (vs ++ [y])) := by
                  rw [lcsLength_cons_cons, if_neg huv]
                have e5 : lcsLength (u :: (us ++ [x])) (v :: vs)
                    = max (lcsLength (us ++ [x]) (v :: vs))
                        (lcsLength (u :: (us ++ [x])) vs) := by
                  rw [lcsLength_cons_cons, if_neg huv]
                rw [e0, e1, e2, e3, e4, e5]
                by_cases hxy : x = y
                · rw [if_pos hxy, if_pos hxy, if_pos hxy]
                  omega
                · rw [if_neg hxy, if_neg hxy, if_neg hxy]
                  omega

theorem take_succ_getD {α : Type} [Inhabited α] (l : List α) (k : Nat)
    (h : k < l.length) :
    l.take (k + 1) = l.take k ++ [l.getD k default] := by
  rw [List.take_succ, List.getElem?_eq_getElem h]
  simp [List.getD, List.getElem?_eq_getElem h]

/-- The source's table agrees with the reference `lcsLength` on prefixes. -/
theorem dp_eq_lcsLength (b a : List String) :
    ∀ n i j, i + j ≤ n → i ≤ b.length → j ≤ a.length →
      dp b a i j = lcsLength (b.take i) (a.take j) := by
  intro n
  induction n with
  | zero =>
      intro i j hn _ _
      have hi : i = 0 := by omega
      subst hi
      rw [dp_zero_left, List.take_zero, lcsLength_nil_left]
  | succ n ih =>
      intro i j hn hi hj
      cases i with
      | zero => rw [dp_zero_left, List.take_zero, lcsLength_nil_left]
      | succ i' =>
          cases j with
          | zero => rw [dp_zero_right, List.take_zero, lcsLength_nil_right]
          | succ j' =>
              rw [dp_succ_succ,
                take_succ_getD b i' (by omega), take_succ_getD a j' (by omega),
                lcsLength_append_singleton (b.length + a.length)
                  (b.take i') (a.take j') (b.getD i' default) (a.getD j' default)
                  (by
                    rw [List.length_take, List.length_take]
                    omega)]
              have e1 : dp b a i' j' = lcsLength (b.take i') (a.take j') :=
                ih i' j' (by omega) (by omega) (by omega)
              by_cases hbe : b.getD i' "" = a.getD j' ""
              · rw [if_pos hbe, if_pos (show (b.getD i' default) = a.getD j' default from hbe), e1]
              · rw [if_neg hbe, if_neg (show ¬(b.getD i' default) = a.getD j' default from hbe),
                  ih i' (j' + 1) (by omega) (by omega) (by omega),
                  ih (i' + 1) j' (by omega) (by omega) (by omega),
                  take_succ_getD b i' (by omega), take_succ_getD a j' (by omega)]

/-- Along the backtracking, the number of non-Equal ops plus twice the table
value accounts exactly for the remaining `i + j` lines. -/
theorem backtrack_editCount (b a : List String) :
    ∀ n i j, i + j ≤ n → i ≤ b.length → j ≤ a.length →
      ((backtrack b a i j).filter fun o => o.type != OpType.equal).length
        + 2 * dp b a i j = i + j := by
  intro n
  induction n with
  | zero =>
      intro i j hn _ _
      have hi : i = 0 := by omega
      have hj : j = 0 := by omega
      subst hi; subst hj
      rw [show backtrack b a 0 0 = [] from backtrackAux_zero_zero b a 0,
        dp_zero_left]
      simp
  | succ n ih =>
      intro i j hn hi hj
      rw [backtrack_eq]
      by_cases h1 : 0 < i ∧ 0 < j ∧ b.getD (i - 1) "" = a.getD (j - 1) ""
      · rw [if_pos h1]
        obtain ⟨hip, hjp, heq⟩ := h1
        obtain ⟨i', rfl⟩ : ∃ i', i = i' + 1 := ⟨i - 1, by omega⟩
        obtain ⟨j', rfl⟩ : ∃ j', j = j' + 1 := ⟨j - 1, by omega⟩
        simp only [Nat.add_sub_cancel] at heq ⊢
        rw [List.filter_cons_of_neg (by simp), dp_succ_succ, if_pos heq]
        have := ih i' j' (by omega) (by omega) (by omega)
        omega
      · rw [if_neg h1]
        by_cases h2 : 0 < j ∧ (i = 0 ∨ dp b a (i - 1) j ≤ dp b a i (j - 1))
        · rw [if_pos h2]
          obtain ⟨hjp, hd⟩ := h2
          obtain ⟨j', rfl⟩ : ∃ j', j = j' + 1 := ⟨j - 1, by omega⟩
          simp only [Nat.add_sub_cancel] at hd ⊢
          rw [List.filter_cons_of_pos (by simp), List.length_cons]
          have hdp : dp b a i (j' + 1) = dp b a i j' := by
            cases i with
            | zero => rw [dp_zero_left, dp_zero_left]
            | succ i' =>
                have hne : ¬ b.getD i' "" = a.getD j' "" := by
                  intro hc
                  exact h1 ⟨by omega, by omega, by
                    simpa only [Nat.add_sub_cancel] using hc⟩
                rw [dp_succ_succ, if_neg hne]
                rcases hd with hd | hd
                · omega
                · simp only [Nat.add_sub_cancel] at hd
                  omega
          have := ih i j' (by omega) (by omega) (by omega)
          omega
        · rw [if_neg h2]
          by_cases h3 : 0 < i
          · rw [if_pos h3]
            obtain ⟨i', rfl⟩ : ∃ i', i = i' + 1 := ⟨i - 1, by omega⟩
            simp only [Nat.add_sub_cancel] at h1 h2 ⊢
            rw [List.filter_cons_of_pos (by simp), List.length_cons]
            have hdp : dp b a (i' + 1) j = dp b a i' j := by
              cases j with
              | zero => rw [dp_zero_right, dp_zero_right]
              | succ j' =>
                  have hne : ¬ b.getD i' "" = a.getD j' "" := by
                    intro hc
                    exact h1 ⟨by omega, by omega, by
                      simpa only [Nat.add_sub_cancel] using hc⟩
                  have hgt : ¬ dp b a i' (j' + 1) ≤ dp b a (i' + 1) j' := by
                    intro hc
                    exact h2 ⟨by omega, Or.inr (by
                      simpa only [Nat.add_sub_cancel] using hc)⟩
                  rw [dp_succ_succ, if_neg hne]
                  omega
            have := ih i' j (by omega) (by omega) (by omega)
            omega
          · rw [if_neg h3]
            have h0 : i = 0 := by omega
            have h0' : j = 0 := by
              by_contra hne
              exact h2 ⟨by omega, Or.inl h0⟩
            subst h0; subst h0'
            rw [dp_zero_left]
            simp

/-- C2: the number of non-Equal ops in `computeLineDiff before after` is
`len before + len after - 2 * L`, with `L` computed by the independent
reference `lcsLength`. -/
theorem computeLineDiff_editCount (b a : List String) :
    ((computeLineDiff b a).filter fun o => o.type != OpType.equal).length
      = b.length + a.length - 2 * lcsLength b a := by
  have hc := backtrack_editCount b a (b.length + a.length)
    b.length a.length (le_refl _) (le_refl _) (le_refl _)
  have he := dp_eq_lcsLength b a (b.length + a.length)
    b.length a.length (le_refl _) (le_refl _) (le_refl _)
  rw [List.take_length, List.take_length] at he
  unfold computeLineDiff
  rw [List.filter_reverse, List.length_reverse]
  omega

/-- The run of Added ops describing the lines of a list in order, with
1-based new line numbers starting at `k + 1`. -/
def addedOps : Nat → List String → List LineOp
  | _, [] => []
  | k, s :: rest => ⟨.added, s, none, some (k + 1)⟩ :: addedOps (k + 1) rest

/-- The run of Deleted ops describing the lines of a list in order, with
1-based old line numbers starting at `k + 1`. -/
def deletedOps : Nat → List String → List LineOp
  | _, [] => []
  | k, s :: rest => ⟨.deleted, s, some (k + 1), none⟩ :: deletedOps (k + 1) rest

theorem addedOps_append_singleton (x : String) :
    ∀ (l : List String) (k : Nat),
      addedOps k (l ++ [x])
        = addedOps k l ++ [⟨.added, x, none, some (k + l.length + 1)⟩] := by
  intro l
  induction l with
  | nil => intro k; rfl
  | cons s rest ih =>
      intro k
      show (⟨.added, s, none, some (k + 1)⟩ : LineOp) :: addedOps (k + 1) (rest ++ [x]) = _
      rw [ih (k + 1)]
      simp only [addedOps, List.cons_append, List.length_cons]
      have : k + 1 + rest.length + 1 = k + (rest.length + 1) + 1 := by omega
      rw [this]

theorem deletedOps_append_singleton (x : String) :
    ∀ (l : List String) (k : Nat),
      deletedOps k (l ++ [x])
        = deletedOps k l ++ [⟨.deleted, x, some (k + l.length + 1), none⟩] := by
  intro l
  induction l with
  | nil => intro k; rfl
  | cons s rest ih =>
      intro k
      show (⟨.deleted, s, some (k + 1), none⟩ : LineOp) :: deletedOps (k + 1) (rest ++ [x]) = _
      rw [ih (k + 1)]
      simp only [deletedOps, List.cons_append, List.length_cons]
      have : k + 1 + rest.length + 1 = k + (rest.length + 1) + 1 := by omega
      rw [this]

theorem backtrack_nil_left (a : List String) :
    ∀ j, j ≤ a.length → backtrack [] a 0 j = (addedOps 0 (a.take j)).reverse := by
  intro j
  induction j with
  | zero =>
      intro _
      rw [show backtrack [] a 0 0 = [] from backtrackAux_zero_zero [] a 0]
      rfl
  | succ j' ih =>
      intro hj
      rw [backtrack_eq, if_neg (by intro h; exact absurd h.1 (by omega)),
        if_pos ⟨by omega, Or.inl rfl⟩]
      simp only [Nat.add_sub_cancel]
      rw [ih (by omega),
        take_succ_getD a j' (by omega), addedOps_append_singleton,
        List.reverse_append]
      have hl : (a.take j').length = j' := by
        rw [List.length_take]; omega
      rw [hl]
      simp only [List.reverse_cons, List.reverse_nil, List.nil_append,
        List.singleton_append, Nat.zero_add]
      rfl

theorem backtrack_nil_right (b : List String) :
    ∀ i, i ≤ b.length → backtrack b [] i 0 = (deletedOps 0 (b.take i)).reverse := by
  intro i
  induction i with
  | zero =>
      intro _
      rw [show backtrack b [] 0 0 = [] from backtrackAux_zero_zero b [] 0]
      rfl
  | succ i' ih =>
      intro hi
      rw [backtrack_eq, if_neg (by intro h; exact absurd h.2.1 (by omega)),
        if_neg (by intro h; exact absurd h.1 (by omega)),
        if_pos (by omega : 0 < i' + 1)]
      simp only [Nat.add_sub_cancel]
      rw [ih (by omega),
        take_succ_getD b i' (by omega), deletedOps_append_singleton,
        List.reverse_append]
      have hl : (b.take i').length = i' := by
        rw [List.length_take]; omega
      rw [hl]
      simp only [List.reverse_cons, List.reverse_nil, List.nil_append,
        List.singleton_append, Nat.zero_add]
      rfl

/-- C6: a diff against an empty `before` is the Added run of the `after`
lines numbered `1..len`, a diff against an empty `after` is the Deleted run
of the `before` lines, and the spec's two examples hold exactly. -/
theorem computeLineDiff_pure_runs (A : List String) :
    computeLineDiff [] A = addedOps 0 A
    ∧ computeLineDiff A [] = deletedOps 0 A
    ∧ computeLineDiff [] ["a", "b"]
        = [⟨.added, "a", none, some 1⟩, ⟨.added, "b", none, some 2⟩]
    ∧ computeLineDiff ["a", "b"] []
        = [⟨.deleted, "a", some 1, none⟩, ⟨.deleted, "b", some 2, none⟩] := by
  refine ⟨?_, ?_, by decide, by decide⟩
  · show (backtrack [] A ([] : List String).length A.length).reverse = _
    rw [show ([] : List String).length = 0 from rfl,
      backtrack_nil_left A A.length (le_refl _), List.reverse_reverse,
      List.take_length]
  · show (backtrack A [] A.length ([] : List String).length).reverse = _
    rw [show ([] : List String).length = 0 from rfl,
      backtrack_nil_right A A.length (le_refl _), List.reverse_reverse,
      List.take_length]

/-- C3 fails on the code: `computeLineDiff(["x"], ["x","x"])` is not the
sequence `[Equal("x",1,1), Added("x",new=2)]` given by the spec. -/
theorem computeLineDiff_tiebreak_counterexample :
    (computeLineDiff ["x"] ["x", "x"]
      == [⟨.equal, "x", some 1, some 1⟩, ⟨.added, "x", none, some 2⟩]) = false := by
  decide

/-- C3 amended: the backtracking takes the diagonal (Equal) branch first, so
`computeLineDiff(["x"], ["x","x"])` is the equally minimal 2-op sequence
`[Added("x",new=1), Equal("x",old=1,new=2)]`. -/
theorem computeLineDiff_tiebreak_amended :
    computeLineDiff ["x"] ["x", "x"] =
      [⟨.added, "x", none, some 1⟩, ⟨.equal, "x", some 1, some 2⟩] := by
  decide

/-- Splitting a character list at every `'\n'`, JS-`split`-style: the empty
text yields one empty line, and a trailing newline yields a final empty
line. -/
def splitOnNewline : List Char → List (List Char)
  | [] => [[]]
  | c :: cs =>
      if c = '\n' then [] :: splitOnNewline cs
      else
        match splitOnNewline cs with
        | [] => [[c]]
        | h :: t => (c :: h) :: t

/-- JS `text.split('\n')`. -/
def splitLines (s : String) : List String :=
  (splitOnNewline s.data).map String.mk

/-- JS `x || d` for an optional string field: an absent or empty (falsy)
string falls back to the default. -/
def jsOrS (x : Option String) (d : String) : String :=
  match x with
  | some s => if s = "" then d else s
  | none => d

/-- The `input` object of an edit tool call: `{ oldString?, newString?,
filePath? }`.  Absent fields are `none`. -/
structure ToolInput where
  oldString : Option String
  newString : Option String
  filePath : Option String
deriving DecidableEq, Repr

/-- The `filediff` object optionally found under a tool state's metadata. -/
structure FileDiffMeta where
  file : Option String
  before : Option String
  after : Option String
  additions : Option Int
  deletions : Option Int
deriving DecidableEq, Repr

/-- A tool state's `metadata` object. -/
structure ToolMetadata where
  filediff : Option FileDiffMeta
deriving DecidableEq, Repr

/-- The `state` of a tool part (`state.input`, `state.metadata`); a missing
`input` behaves as the all-absent input `{}`. -/
structure ToolState where
  input : ToolInput
  metadata : Option ToolMetadata
deriving DecidableEq, Repr

/-- One message part: only parts with `type === 'tool'` carry a state. -/
inductive Part
  | tool (state : ToolState)
  | other
deriving DecidableEq, Repr

/-- One entry of the produced diff list (`currentPatches` entry or the
objects pushed by `extractDiffsFromMessages`); the presentation bookkeeping
fields `msgIndex`, `partId` and `msgTime`, which no claim mentions, are
omitted. -/
structure DiffEntry where
  file : String
  before : String
  after : String
  additions : Int
  deletions : Int
deriving DecidableEq, Repr

/-- JS `(state.metadata || {}).filediff`. -/
def stateFilediff (state : ToolState) : Option FileDiffMeta :=
  match state.metadata with
  | some md => md.filediff
  | none => none

/-- The patch built by `toggleDiffInTimeline` from an edit tool part's input:
produced whenever `oldString` or `newString` is present (`!== undefined`),
with the missing side as `''` and the additions/deletions counts clamped
from the raw line-count difference. -/
def togglePatchOfInput (input : ToolInput) : Option DiffEntry :=
  if input.oldString.isSome ∨ input.newString.isSome then
    let oldStr := jsOrS input.oldString ""
    let newStr := jsOrS input.newString ""
    let additions : Int :=
      ((splitLines newStr).length : Int) - ((splitLines oldStr).length : Int)
    let deletions : Int := if additions < 0 then -additions else 0
    let posAdditions : Int := if additions > 0 then additions else 0
    some { file := jsOrS input.filePath "unknown", before := oldStr,
           after := newStr, additions := posAdditions, deletions := deletions }
  else none

/-- The entry pushed by `extractDiffsFromMessages` from an edit tool part's
input, given the entries `diffs` accumulated so far: requires a field to be
present, the pair to be non-empty (`oldStr || newStr`), and no existing entry
with the same resolved file path. -/
def editDiffOfInput (diffs : List DiffEntry) (input : ToolInput) :
    Option DiffEntry :=
  if input.oldString.isSome ∨ input.newString.isSome then
    let oldStr := jsOrS input.oldString ""
    let newStr := jsOrS input.newString ""
    if oldStr ≠ "" ∨ newStr ≠ "" then
      let filePath := jsOrS input.filePath "unknown"
      if diffs.any fun d => d.file = filePath then none
      else
        let additions : Int :=
          ((splitLines newStr).length : Int) - ((splitLines oldStr).length : Int)
        let deletions : Int := if additions < 0 then -additions else 0
        let posAdditions : Int := if additions > 0 then additions else 0
        some { file := filePath, before := oldStr, after := newStr,
               additions := posAdditions, deletions := deletions }
    else none
  else none

/-- The entry pushed by `extractDiffsFromMessages` when a tool state carries
`metadata.filediff`. -/
def filediffEntry (state : ToolState) : Option DiffEntry :=
  (stateFilediff state).map fun fd =>
    { file := jsOrS fd.file (jsOrS state.input.filePath "unknown"),
      before := jsOrS fd.before "", after := jsOrS fd.after "",
      additions := fd.additions.getD 0, deletions := fd.deletions.getD 0 }

/-- The body of the `parts.forEach` of `extractDiffsFromMessages`: first the
`filediff` push, then the `oldString`/`newString` push guarded by the
same-file check against everything accumulated so far. -/
def processPart (diffs : List DiffEntry) (part : Part) : List DiffEntry :=
  match part with
  | .tool state =>
      let diffs1 :=
        match filediffEntry state with
        | some d => diffs ++ [d]
        | none => diffs
      match editDiffOfInput diffs1 state.input with
      | some d => diffs1 ++ [d]
      | none => diffs1
  | .other => diffs

/-- `extractDiffsFromMessages(messages)`: each message contributes its parts
in order to one shared `diffs` array. -/
def extractDiffsFromMessages (messages : List (List Part)) : List DiffEntry :=
  messages.foldl (fun diffs parts => parts.foldl processPart diffs) []

/-- `processPart` with a ghost provenance tag on every entry: `true` marks
entries pushed by the `oldString`/`newString` branch, `false` those pushed by
the `filediff` branch.  Erasing the tags gives back `processPart`. -/
def processPartTagged (t : List (DiffEntry × Bool)) (part : Part) :
    List (DiffEntry × Bool) :=
  match part with
  | .tool state =>
      let t1 :=
        match filediffEntry state with
        | some d => t ++ [(d, false)]
        | none => t
      match editDiffOfInput (t1.map Prod.fst) state.input with
      | some d => t1 ++ [(d, true)]
      | none => t1
  | .other => t

/-- `extractDiffsFromMessages` with ghost provenance tags. -/
def extractDiffsTagged (messages : List (List Part)) :
    List (DiffEntry × Bool) :=
  messages.foldl (fun t parts => parts.foldl processPartTagged t) []

/-- The result of `renderInlineDiff(patch)`: either the "Contenu non
disponible" placeholder (when both texts are empty/falsy) or the rendered
rows, one per op of `computeLineDiff` over the newline-split texts.  The
HTML wrapping of each row is presentation only and is not modelled. -/
inductive RenderedDiff
  | unavailable
  | rows (ops : List LineOp)
deriving DecidableEq, Repr

/-- `renderInlineDiff(patch)` (the op sequence it renders). -/
def renderInlineDiff (patch : DiffEntry) : RenderedDiff :=
  if patch.before = "" ∧ patch.after = "" then .unavailable
  else .rows (computeLineDiff (splitLines patch.before) (splitLines patch.after))

/-- C4 fails on the code: for the creation record `newString = "a"`,
`oldString` absent, the rendered diff is not Added-only — the empty before
text splits into one empty line, which backtracking emits as a Deleted op. -/
theorem renderInlineDiff_creation_counterexample :
    renderInlineDiff ⟨"f", "", "a", 0, 0⟩
      = .rows [⟨.deleted, "", some 1, none⟩, ⟨.added, "a", none, some 1⟩]
    ∧ (([⟨.deleted, "", some 1, none⟩,
          (⟨.added, "a", none, some 1⟩ : LineOp)]).all
        fun o => o.type == OpType.added) = false := by
  decide

/-- The ops of a diff split by tag: the non-Added ops are the Equal ops plus
the Deleted ops, and the two symmetric identities. -/
theorem opCounts_split (l : List LineOp) :
    ((l.filter fun o => o.type != OpType.added).length
      = (l.filter fun o => o.type == OpType.equal).length
        + (l.filter fun o => o.type == OpType.deleted).length)
    ∧ ((l.filter fun o => o.type != OpType.deleted).length
      = (l.filter fun o => o.type == OpType.equal).length
        + (l.filter fun o => o.type == OpType.added).length)
    ∧ ((l.filter fun o => o.type != OpType.equal).length
      = (l.filter fun o => o.type == OpType.added).length
        + (l.filter fun o => o.type == OpType.deleted).length) := by
  induction l with
  | nil => exact ⟨rfl, rfl, rfl⟩
  | cons o rest ih =>
      obtain ⟨i1, i2, i3⟩ := ih
      obtain ⟨ty, line, onum, nnum⟩ := o
      cases ty <;>
        simp only [List.filter_cons] <;>
        simp [i1, i2, i3] <;>
        omega

/-- When the before side is the single empty line and no after line is
empty, backtracking emits the Added ops of the after lines followed (in
reversed push order) by one Deleted op for the empty line. -/
theorem backtrack_one_empty_before (A : List String)
    (hA : ∀ k, k < A.length → A.getD k "" ≠ "") :
    ∀ j, j ≤ A.length →
      backtrack [""] A 1 j
        = ((⟨.deleted, "", some 1, none⟩ : LineOp)
            :: addedOps 0 (A.take j)).reverse := by
  intro j
  induction j with
  | zero =>
      intro _
      rw [backtrack_eq,
        if_neg (fun h => absurd h.2.1 (by omega)),
        if_neg (fun h => absurd h.1 (by omega)),
        if_pos (by omega : (0 : Nat) < 1),
        show backtrack [""] A (1 - 1) 0 = [] from backtrackAux_zero_zero [""] A 0]
      rfl
  | succ j' ih =>
      intro hj
      rw [backtrack_eq]
      simp only [Nat.add_sub_cancel, Nat.sub_self]
      rw [if_neg (fun h => hA j' (by omega) h.2.2.symm),
        if_pos ⟨by omega, Or.inr (by
          rw [dp_zero_left]
          exact Nat.zero_le _)⟩,
        ih (by omega), take_succ_getD A j' (by omega),
        addedOps_append_singleton]
      have hl : (A.take j').length = j' := by
        rw [List.length_take]; omega
      rw [hl]
      simp only [List.reverse_cons, List.reverse_append, List.reverse_nil,
        List.nil_append, List.singleton_append, List.cons_append,
        Nat.zero_add, List.append_assoc]
      rfl

/-- C4 amended: when `oldString` is absent (before text `""`) and
`newString` is non-empty, the rendered diff is the diff of the single empty
line against the new lines; its non-Added ops are exactly one op whose text
is the empty string, and that op is an Equal op when the new text contains
an empty line, while otherwise the diff is literally one leading Deleted op
for the empty line followed by the Added run of all new lines. -/
theorem renderInlineDiff_creation_amended (p : DiffEntry)
    (hb : p.before = "") (ha : p.after ≠ "") :
    renderInlineDiff p = .rows (computeLineDiff [""] (splitLines p.after))
    ∧ ((computeLineDiff [""] (splitLines p.after)).filter
        fun o => o.type != OpType.added).map LineOp.line = [""]
    ∧ ("" ∈ splitLines p.after →
        ∀ o ∈ computeLineDiff [""] (splitLines p.after),
          o.type ≠ OpType.added → o.type = OpType.equal)
    ∧ ("" ∉ splitLines p.after →
        computeLineDiff [""] (splitLines p.after)
          = ⟨.deleted, "", some 1, none⟩ :: addedOps 0 (splitLines p.after)) := by
  have hmap : ((computeLineDiff [""] (splitLines p.after)).filter
      fun o => o.type != OpType.added).map LineOp.line = [""] := by
    obtain ⟨hres, -⟩ := backtrack_restore [""] (splitLines p.after)
      (1 + (splitLines p.after).length) 1 (splitLines p.after).length
      (le_refl _) (by simp) (le_refl _)
    show ((List.reverse _).filter _).map _ = _
    rw [List.filter_reverse, List.map_reverse,
      show ([""] : List String).length = 1 from rfl, hres]
    rfl
  have hl : computeLineDiff [""] (splitLines p.after)
      = (backtrack [""] (splitLines p.after) 1 (splitLines p.after).length).reverse :=
    rfl
  refine ⟨?_, hmap, ?_, ?_⟩
  · rw [renderInlineDiff, if_neg (by intro h; exact ha h.2), hb]
    rfl
  · intro hin o ho hne
    have hED : ((computeLineDiff [""] (splitLines p.after)).filter
        fun o => o.type != OpType.added).length = 1 := by
      have h' := congrArg List.length hmap
      rw [List.length_map] at h'
      simpa using h'
    obtain ⟨-, hres2⟩ := backtrack_restore [""] (splitLines p.after)
      (1 + (splitLines p.after).length) 1 (splitLines p.after).length
      (le_refl _) (by simp) (le_refl _)
    rw [List.take_length] at hres2
    have hEA : ((computeLineDiff [""] (splitLines p.after)).filter
        fun o => o.type != OpType.deleted).length = (splitLines p.after).length := by
      rw [hl, List.filter_reverse, List.length_reverse]
      have h' := congrArg List.length hres2
      rw [List.length_map, List.length_reverse] at h'
      exact h'
    have hdp : dp [""] (splitLines p.after) 1 (splitLines p.after).length = 1 := by
      rw [dp_eq_lcsLength [""] (splitLines p.after)
          (1 + (splitLines p.after).length) 1 (splitLines p.after).length
          (le_refl _) (by simp) (le_refl _),
        List.take_length,
        show ([""] : List String).take 1 = [""] from rfl,
        lcsLength_singleton_left, if_pos hin]
    have hnonEq : ((computeLineDiff [""] (splitLines p.after)).filter
        fun o => o.type != OpType.equal).length
          + 2 * dp [""] (splitLines p.after) 1 (splitLines p.after).length
          = 1 + (splitLines p.after).length := by
      rw [hl, List.filter_reverse, List.length_reverse]
      exact backtrack_editCount [""] (splitLines p.after)
        (1 + (splitLines p.after).length) 1 (splitLines p.after).length
        (le_refl _) (by simp) (le_refl _)
    obtain ⟨c1, c2, c3⟩ := opCounts_split (computeLineDiff [""] (splitLines p.after))
    have hD0 : ((computeLineDiff [""] (splitLines p.after)).filter
        fun o => o.type == OpType.deleted).length = 0 := by
      rw [hdp] at hnonEq
      omega
    cases hty : o.type with
    | equal => rfl
    | added => exact absurd hty hne
    | deleted =>
        exfalso
        have hmem : o ∈ (computeLineDiff [""] (splitLines p.after)).filter
            fun o => o.type == OpType.deleted :=
          List.mem_filter.mpr ⟨ho, by rw [hty]; rfl⟩
        have := List.length_pos_of_mem hmem
        omega
  · intro hnin
    have hA : ∀ k, k < (splitLines p.after).length →
        (splitLines p.after).getD k "" ≠ "" := by
      intro k hk hc
      apply hnin
      rw [← hc, List.getD_eq_getElem?_getD, List.getElem?_eq_getElem hk]
      exact List.getElem_mem hk
    rw [hl, backtrack_one_empty_before (splitLines p.after) hA
        (splitLines p.after).length (le_refl _),
      List.reverse_reverse, List.take_length]

/-- Witness for the amended C4: at `newString = "a"` the diff is the leading
Deleted empty line followed by the Added run, and at `newString = "a\n"`
(which splits with an empty line) the theorem's Equal classification applies
to the non-Added op. -/
theorem renderInlineDiff_creation_amended_witness :
    renderInlineDiff ⟨"f", "", "a", 0, 0⟩
      = RenderedDiff.rows (computeLineDiff [""] (splitLines "a"))
    ∧ ((computeLineDiff [""] (splitLines "a")).filter
        fun o => o.type != OpType.added).map LineOp.line = [""]
    ∧ computeLineDiff [""] (splitLines "a")
        = ⟨.deleted, "", some 1, none⟩ :: addedOps 0 (splitLines "a")
    ∧ (⟨.equal, "", some 1, some 2⟩ : LineOp).type = OpType.equal := by
  refine ⟨?_, ?_, ?_, ?_⟩
  · exact (renderInlineDiff_creation_amended ⟨"f", "", "a", 0, 0⟩ rfl (by decide)).1
  · exact (renderInlineDiff_creation_amended ⟨"f", "", "a", 0, 0⟩ rfl (by decide)).2.1
  · exact (renderInlineDiff_creation_amended ⟨"f", "", "a", 0, 0⟩ rfl
      (by decide)).2.2.2 (by decide)
  · exact (renderInlineDiff_creation_amended ⟨"f", "", "a\n", 0, 0⟩ rfl
      (by decide)).2.2.1 (by decide) ⟨.equal, "", some 1, some 2⟩
      (by decide) (by decide)

/-- C5 fails on the code: in `extractDiffsFromMessages`, a record whose
`oldString` and `newString` are both present but empty produces no diff
entry, although a content field is present. -/
theorem extractDiff_policy_counterexample :
    (ToolInput.mk (some "") (some "") (some "f")).oldString.isSome = true
    ∧ editDiffOfInput [] (ToolInput.mk (some "") (some "") (some "f")) = none := by
  decide

/-- C5 amended: `toggleDiffInTimeline` builds a patch iff a content field is
present, but `extractDiffsFromMessages` pushes an input-derived entry iff a
content field is present, at least one side is non-empty, and no earlier
entry has the same resolved file path; in both, a missing or empty side is
taken as the empty string. -/
theorem extractDiff_policy_amended :
    (∀ input : ToolInput,
      ((togglePatchOfInput input).isSome = true
          ↔ (input.oldString.isSome = true ∨ input.newString.isSome = true))
      ∧ ∀ p, togglePatchOfInput input = some p →
          p.before = jsOrS input.oldString "" ∧ p.after = jsOrS input.newString "")
    ∧ (∀ (diffs : List DiffEntry) (input : ToolInput),
      ((editDiffOfInput diffs input).isSome = true
          ↔ ((input.oldString.isSome = true ∨ input.newString.isSome = true)
            ∧ (jsOrS input.oldString "" ≠ "" ∨ jsOrS input.newString "" ≠ "")
            ∧ ¬ (diffs.any fun d => d.file = jsOrS input.filePath "unknown") = true))
      ∧ ∀ p, editDiffOfInput diffs input = some p →
          p.before = jsOrS input.oldString "" ∧ p.after = jsOrS input.newString "") := by
  constructor
  · intro input
    constructor
    · rw [togglePatchOfInput]
      by_cases h : input.oldString.isSome ∨ input.newString.isSome
      · rw [if_pos h]
        simp only [Option.isSome_some, true_iff]
        rcases h with h | h
        · exact Or.inl h
        · exact Or.inr h
      · rw [if_neg h]
        simp only [Option.isSome_none, Bool.false_eq_true, false_iff]
        intro hc
        rcases hc with hc | hc
        · exact h (Or.inl hc)
        · exact h (Or.inr hc)
    · intro p hp
      rw [togglePatchOfInput] at hp
      by_cases h : input.oldString.isSome ∨ input.newString.isSome
      · rw [if_pos h] at hp
        cases Option.some.inj hp
        exact ⟨rfl, rfl⟩
      · rw [if_neg h] at hp
        cases hp
  · intro diffs input
    constructor
    · rw [editDiffOfInput]
      by_cases h1 : input.oldString.isSome ∨ input.newString.isSome
      · rw [if_pos h1]
        by_cases h2 : jsOrS input.oldString "" ≠ "" ∨ jsOrS input.newString "" ≠ ""
        · rw [if_pos h2]
          by_cases h3 : diffs.any fun d => d.file = jsOrS input.filePath "unknown"
          · rw [if_pos h3]
            simp only [Option.isSome_none, Bool.false_eq_true, false_iff]
            intro hc
            exact hc.2.2 h3
          · rw [if_neg h3]
            simp only [Option.isSome_some, true_iff]
            refine ⟨?_, h2, h3⟩
            rcases h1 with h | h
            · exact Or.inl h
            · exact Or.inr h
        · rw [if_neg h2]
          simp only [Option.isSome_none, Bool.false_eq_true, false_iff]
          intro hc
          exact h2 hc.2.1
      · rw [if_neg h1]
        simp only [Option.isSome_none, Bool.false_eq_true, false_iff]
        intro hc
        rcases hc.1 with h | h
        · exact h1 (Or.inl h)
        · exact h1 (Or.inr h)
    · intro p hp
      rw [editDiffOfInput] at hp
      by_cases h1 : input.oldString.isSome ∨ input.newString.isSome
      · rw [if_pos h1] at hp
        by_cases h2 : jsOrS input.oldString "" ≠ "" ∨ jsOrS input.newString "" ≠ ""
        · rw [if_pos h2] at hp
          by_cases h3 : diffs.any fun d => d.file = jsOrS input.filePath "unknown"
          · rw [if_pos h3] at hp
            cases hp
          · rw [if_neg h3] at hp
            cases Option.some.inj hp
            exact ⟨rfl, rfl⟩
        · rw [if_neg h2] at hp
          cases hp
      · rw [if_neg h1] at hp
        cases hp

/-- Witness for the amended C5 at concrete records: a present `oldString`
makes `toggleDiffInTimeline` produce a patch, and a lone non-empty
`newString` yields an `extractDiffsFromMessages` entry whose before side is
the empty string. -/
theorem extractDiff_policy_amended_witness :
    (togglePatchOfInput ⟨some "a", none, some "f"⟩).isSome = true
    ∧ (editDiffOfInput [] ⟨none, some "x", some "g"⟩).isSome = true
    ∧ (⟨"g", "", "x", 0, 0⟩ : DiffEntry).before = jsOrS none "" := by
  refine ⟨?_, ?_, ?_⟩
  · exact (extractDiff_policy_amended.1 ⟨some "a", none, some "f"⟩).1.mpr
      (Or.inl rfl)
  · exact ((extractDiff_policy_amended.2 [] ⟨none, some "x", some "g"⟩).1).mpr
      ⟨Or.inr rfl, Or.inr (by decide), by decide⟩
  · exact (((extractDiff_policy_amended.2 [] ⟨none, some "x", some "g"⟩).2
      ⟨"g", "", "x", 0, 0⟩ (by decide))).1

/-- C9: both patch builders attach additions/deletions equal to the clamped
net difference of the raw newline-split line counts of the two content
strings (not the counts of Added/Deleted ops of the computed diff). -/
theorem patchCounts_clamped (input : ToolInput) :
    (∀ p, togglePatchOfInput input = some p →
        p.additions = max 0 (((splitLines (jsOrS input.newString "")).length : Int)
            - ((splitLines (jsOrS input.oldString "")).length : Int))
        ∧ p.deletions = max 0 (((splitLines (jsOrS input.oldString "")).length : Int)
            - ((splitLines (jsOrS input.newString "")).length : Int)))
    ∧ (∀ (diffs : List DiffEntry) p, editDiffOfInput diffs input = some p →
        p.additions = max 0 (((splitLines (jsOrS input.newString "")).length : Int)
            - ((splitLines (jsOrS input.oldString "")).length : Int))
        ∧ p.deletions = max 0 (((splitLines (jsOrS input.oldString "")).length : Int)
            - ((splitLines (jsOrS input.newString "")).length : Int))) := by
  constructor
  · intro p hp
    rw [togglePatchOfInput] at hp
    by_cases h : input.oldString.isSome ∨ input.newString.isSome
    · rw [if_pos h] at hp
      cases Option.some.inj hp
      constructor
      · show (if _ > _ then _ else _) = _
        split_ifs <;> omega
      · show (if _ < _ then _ else _) = _
        split_ifs <;> omega
    · rw [if_neg h] at hp
      cases hp
  · intro diffs p hp
    rw [editDiffOfInput] at hp
    by_cases h1 : input.oldString.isSome ∨ input.newString.isSome
    · rw [if_pos h1] at hp
      by_cases h2 : jsOrS input.oldString "" ≠ "" ∨ jsOrS input.newString "" ≠ ""
      · rw [if_pos h2] at hp
        by_cases h3 : diffs.any fun d => d.file = jsOrS input.filePath "unknown"
        · rw [if_pos h3] at hp
          cases hp
        · rw [if_neg h3] at hp
          cases Option.some.inj hp
          constructor
          · show (if _ > _ then _ else _) = _
            split_ifs <;> omega
          · show (if _ < _ then _ else _) = _
            split_ifs <;> omega
      · rw [if_neg h2] at hp
        cases hp
    · rw [if_neg h1] at hp
      cases hp

/-- Witness for C9 at a concrete record: old text of two lines, new text of
one line gives additions 0 and deletions 1. -/
theorem patchCounts_clamped_witness :
    (⟨"unknown", "a\nb", "c", 0, 1⟩ : DiffEntry).additions
      = max 0 (((splitLines (jsOrS (ToolInput.mk (some "a\nb") (some "c") none).newString "")).length : Int)
          - ((splitLines (jsOrS (ToolInput.mk (some "a\nb") (some "c") none).oldString "")).length : Int))
    ∧ (⟨"unknown", "a\nb", "c", 0, 1⟩ : DiffEntry).deletions
      = max 0 (((splitLines (jsOrS (ToolInput.mk (some "a\nb") (some "c") none).oldString "")).length : Int)
          - ((splitLines (jsOrS (ToolInput.mk (some "a\nb") (some "c") none).newString "")).length : Int)) :=
  (patchCounts_clamped ⟨some "a\nb", some "c", none⟩).1
    ⟨"unknown", "a\nb", "c", 0, 1⟩ (by decide)

/-- A successful `oldString`/`newString` push has a file path different from
every already accumulated entry (the `diffs.some(...)` guard). -/
theorem editDiffOfInput_fresh (diffs : List DiffEntry) (input : ToolInput)
    (d : DiffEntry) (h : editDiffOfInput diffs input = some d) :
    ∀ e ∈ diffs, e.file ≠ d.file := by
  rw [editDiffOfInput] at h
  by_cases h1 : input.oldString.isSome ∨ input.newString.isSome
  · rw [if_pos h1] at h
    by_cases h2 : jsOrS input.oldString "" ≠ "" ∨ jsOrS input.newString "" ≠ ""
    · rw [if_pos h2] at h
      by_cases h3 : diffs.any fun e => e.file = jsOrS input.filePath "unknown"
      · rw [if_pos h3] at h
        cases h
      · rw [if_neg h3] at h
        cases Option.some.inj h
        intro e he hc
        exact h3 (List.any_eq_true.mpr ⟨e, he, by
          simp only [decide_eq_true_eq]
          exact hc⟩)
    · rw [if_neg h2] at h
      cases h
  · rw [if_neg h1] at h
    cases h

/-- Erasing the provenance tags of `processPartTagged` gives `processPart`. -/
theorem processPartTagged_fst (t : List (DiffEntry × Bool)) (part : Part) :
    (processPartTagged t part).map Prod.fst = processPart (t.map Prod.fst) part := by
  cases part with
  | other => rfl
  | tool state =>
      simp only [processPartTagged, processPart]
      cases hf : filediffEntry state with
      | none =>
          cases he : editDiffOfInput (t.map Prod.fst) state.input <;> simp [he]
      | some d =>
          simp only [List.map_append, List.map_cons, List.map_nil]
          cases he : editDiffOfInput (t.map Prod.fst ++ [d]) state.input <;>
            simp [he]

/-- The invariant of the tagged accumulation: every later edit-derived entry
has a file value different from every earlier entry. -/
theorem processPartTagged_inv (t : List (DiffEntry × Bool)) (part : Part)
    (h : t.Pairwise fun x y => y.2 = true → x.1.file ≠ y.1.file) :
    (processPartTagged t part).Pairwise
      fun x y => y.2 = true → x.1.file ≠ y.1.file := by
  have snocFalse : ∀ (t' : List (DiffEntry × Bool)) (d : DiffEntry),
      (t'.Pairwise fun x y => y.2 = true → x.1.file ≠ y.1.file) →
      ((t' ++ [(d, false)]).Pairwise fun x y => y.2 = true → x.1.file ≠ y.1.file) := by
    intro t' d h'
    refine List.pairwise_append.mpr ⟨h', List.pairwise_singleton _ _, ?_⟩
    intro x _ y hy
    rw [List.mem_singleton] at hy
    subst hy
    intro hc
    cases hc
  have snocTrue : ∀ (t' : List (DiffEntry × Bool)) (d : DiffEntry),
      (t'.Pairwise fun x y => y.2 = true → x.1.file ≠ y.1.file) →
      (∀ e ∈ t'.map Prod.fst, e.file ≠ d.file) →
      ((t' ++ [(d, true)]).Pairwise fun x y => y.2 = true → x.1.file ≠ y.1.file) := by
    intro t' d h' hfresh
    refine List.pairwise_append.mpr ⟨h', List.pairwise_singleton _ _, ?_⟩
    intro x hx y hy
    rw [List.mem_singleton] at hy
    subst hy
    intro _
    exact hfresh x.1 (List.mem_map.mpr ⟨x, hx, rfl⟩)
  cases part with
  | other => exact h
  | tool state =>
      simp only [processPartTagged]
      cases hf : filediffEntry state with
      | none =>
          cases he : editDiffOfInput (t.map Prod.fst) state.input with
          | none => exact h
          | some d' => exact snocTrue t d' h (editDiffOfInput_fresh _ _ _ he)
      | some d =>
          cases he : editDiffOfInput ((t ++ [(d, false)]).map Prod.fst) state.input with
          | none => exact snocFalse t d h
          | some d' =>
              exact snocTrue (t ++ [(d, false)]) d' (snocFalse t d h)
                (editDiffOfInput_fresh _ _ _ he)

theorem foldl_parts_tagged_fst (parts : List Part) :
    ∀ t, (parts.foldl processPartTagged t).map Prod.fst
      = parts.foldl processPart (t.map Prod.fst) := by
  induction parts with
  | nil => intro t; rfl
  | cons p ps ih =>
      intro t
      rw [List.foldl_cons, List.foldl_cons, ih, processPartTagged_fst]

theorem foldl_parts_tagged_inv (parts : List Part) :
    ∀ t, (t.Pairwise fun x y => y.2 = true → x.1.file ≠ y.1.file) →
      ((parts.foldl processPartTagged t).Pairwise
        fun x y => y.2 = true → x.1.file ≠ y.1.file) := by
  induction parts with
  | nil => intro t h; exact h
  | cons p ps ih =>
      intro t h
      rw [List.foldl_cons]
      exact ih _ (processPartTagged_inv t p h)

/-- C10: with ghost provenance tags (erasing them gives back
`extractDiffsFromMessages`), every entry pushed by the `oldString`/`newString`
branch has a file value different from every earlier entry — in particular
any two input-derived entries have distinct `file` values, and an edit record
whose file already appears contributes nothing. -/
theorem extractDiffs_edit_files_distinct (messages : List (List Part)) :
    (extractDiffsTagged messages).map Prod.fst = extractDiffsFromMessages messages
    ∧ (extractDiffsTagged messages).Pairwise
        fun x y => y.2 = true → x.1.file ≠ y.1.file := by
  constructor
  · have : ∀ (msgs : List (List Part)) (t : List (DiffEntry × Bool)),
        (msgs.foldl (fun t parts => parts.foldl processPartTagged t) t).map Prod.fst
          = msgs.foldl (fun diffs parts => parts.foldl processPart diffs) (t.map Prod.fst) := by
      intro msgs
      induction msgs with
      | nil => intro t; rfl
      | cons m ms ih =>
          intro t
          rw [List.foldl_cons, List.foldl_cons, ih, foldl_parts_tagged_fst]
    simpa [extractDiffsTagged, extractDiffsFromMessages] using this messages []
  · have : ∀ (msgs : List (List Part)) (t : List (DiffEntry × Bool)),
        (t.Pairwise fun x y => y.2 = true → x.1.file ≠ y.1.file) →
        ((msgs.foldl (fun t parts => parts.foldl processPartTagged t) t).Pairwise
          fun x y => y.2 = true → x.1.file ≠ y.1.file) := by
      intro msgs
      induction msgs with
      | nil => intro t h; exact h
      | cons m ms ih =>
          intro t h
          rw [List.foldl_cons]
          exact ih _ (foldl_parts_tagged_inv m t h)
    exact this messages [] List.Pairwise.nil

theorem getElem?_eq_some_getD (l : List String) (k : Nat) (h : k < l.length) :
    l[k]? = some (l.getD k "") := by
  rw [List.getElem?_eq_getElem h, List.getD_eq_getElem?_getD,
    List.getElem?_eq_getElem h]
  rfl

/-- The table fill with every array access checked: an out-of-range read of
`beforeLines` or `afterLines` yields `none` instead of a value. -/
def dpCAux (b a : List String) : Nat → Nat → Nat → Option Nat
  | 0, _, _ => some 0
  | _ + 1, 0, _ => some 0
  | _ + 1, _ + 1, 0 => some 0
  | fuel + 1, i + 1, j + 1 =>
      (b[i]?).bind fun bi =>
      (a[j]?).bind fun aj =>
      if bi = aj then
        (dpCAux b a fuel i j).bind fun v => some (v + 1)
      else
        (dpCAux b a fuel i (j + 1)).bind fun x =>
        (dpCAux b a fuel (i + 1) j).bind fun y =>
        some (max x y)

/-- Checked table entry `dp[i][j]`. -/
def dpC (b a : List String) (i j : Nat) : Option Nat :=
  dpCAux b a (i + j) i j

/-- The backtracking loop with every array and table access checked,
following the source's short-circuit evaluation order: the line comparison
reads both lines only when `i > 0 && j > 0`, the Added condition reads the
two table cells only when `i ≠ 0`, and each branch re-reads the line it
pushes. -/
def backtrackCAux (b a : List String) : Nat → Nat → Nat → Option (List LineOp)
  | 0, _, _ => some []
  | fuel + 1, i, j =>
      if i = 0 ∧ j = 0 then some []
      else if 0 < i ∧ 0 < j then
        (b[i - 1]?).bind fun bi =>
        (a[j - 1]?).bind fun aj =>
        if bi = aj then
          (backtrackCAux b a fuel (i - 1) (j - 1)).bind fun r =>
            some (⟨.equal, bi, some i, some j⟩ :: r)
        else
          (dpC b a i (j - 1)).bind fun x =>
          (dpC b a (i - 1) j).bind fun y =>
          if y ≤ x then
            (backtrackCAux b a fuel i (j - 1)).bind fun r =>
              some (⟨.added, aj, none, some j⟩ :: r)
          else
            (backtrackCAux b a fuel (i - 1) j).bind fun r =>
              some (⟨.deleted, bi, some i, none⟩ :: r)
      else if 0 < j then
        (a[j - 1]?).bind fun aj =>
        (backtrackCAux b a fuel i (j - 1)).bind fun r =>
          some (⟨.added, aj, none, some j⟩ :: r)
      else
        (b[i - 1]?).bind fun bi =>
        (backtrackCAux b a fuel (i - 1) j).bind fun r =>
          some (⟨.deleted, bi, some i, none⟩ :: r)

/-- `computeLineDiff` with checked accesses. -/
def computeLineDiffChecked (beforeLines afterLines : List String) :
    Option (List LineOp) :=
  (backtrackCAux beforeLines afterLines
      (beforeLines.length + afterLines.length)
      beforeLines.length afterLines.length).map List.reverse

theorem dpCAux_eq (b a : List String) :
    ∀ fuel i j, i ≤ b.length → j ≤ a.length →
      dpCAux b a fuel i j = some (dpAux b a fuel i j) := by
  intro fuel
  induction fuel with
  | zero => intro i j _ _; rfl
  | succ n ih =>
      intro i j hi hj
      cases i with
      | zero => rfl
      | succ i' =>
          cases j with
          | zero => rfl
          | succ j' =>
              show ((b[i']?).bind fun bi => (a[j']?).bind fun aj => _) = _
              rw [getElem?_eq_some_getD b i' (by omega),
                getElem?_eq_some_getD a j' (by omega)]
              simp only [Option.some_bind]
              by_cases hbe : b.getD i' "" = a.getD j' ""
              · rw [if_pos hbe, ih i' j' (by omega) (by omega)]
                show some _ = some (dpAux b a (n + 1) (i' + 1) (j' + 1))
                rw [dpAux, if_pos hbe]
              · rw [if_neg hbe, ih i' (j' + 1) (by omega) (by omega),
                  ih (i' + 1) j' (by omega) (by omega)]
                show some _ = some (dpAux b a (n + 1) (i' + 1) (j' + 1))
                rw [dpAux, if_neg hbe]

theorem dpC_eq (b a : List String) (i j : Nat) (hi : i ≤ b.length)
    (hj : j ≤ a.length) : dpC b a i j = some (dp b a i j) :=
  dpCAux_eq b a (i + j) i j hi hj

theorem backtrackCAux_eq (b a : List String) :
    ∀ fuel i j, i ≤ b.length → j ≤ a.length →
      backtrackCAux b a fuel i j = some (backtrackAux b a fuel i j) := by
  intro fuel
  induction fuel with
  | zero => intro i j _ _; rfl
  | succ n ih =>
      intro i j hi hj
      rw [backtrackCAux, backtrackAux]
      by_cases h0 : i = 0 ∧ j = 0
      · rw [if_pos h0,
          if_neg (fun h => absurd h.1 (by omega)),
          if_neg (fun h => absurd h.1 (by omega)),
          if_neg (by omega)]
      · rw [if_neg h0]
        by_cases hij : 0 < i ∧ 0 < j
        · rw [if_pos hij,
            getElem?_eq_some_getD b (i - 1) (by omega),
            getElem?_eq_some_getD a (j - 1) (by omega)]
          simp only [Option.some_bind]
          by_cases hbe : b.getD (i - 1) "" = a.getD (j - 1) ""
          · rw [if_pos hbe, ih (i - 1) (j - 1) (by omega) (by omega),
              if_pos ⟨hij.1, hij.2, hbe⟩]
            rfl
          · rw [if_neg hbe,
              dpC_eq b a i (j - 1) (by omega) (by omega),
              dpC_eq b a (i - 1) j (by omega) (by omega)]
            simp only [Option.some_bind]
            by_cases hle : dp b a (i - 1) j ≤ dp b a i (j - 1)
            · rw [if_pos hle, ih i (j - 1) (by omega) (by omega),
                if_neg (fun h => hbe h.2.2), if_pos ⟨hij.2, Or.inr hle⟩]
              rfl
            · rw [if_neg hle, ih (i - 1) j (by omega) (by omega),
                if_neg (fun h => hbe h.2.2),
                if_neg (fun h => by
                  rcases h.2 with h' | h'
                  · omega
                  · exact hle h'),
                if_pos hij.1]
              rfl
        · rw [if_neg hij]
          by_cases hjp : 0 < j
          · have hi0 : i = 0 := by omega
            rw [if_pos hjp,
              getElem?_eq_some_getD a (j - 1) (by omega)]
            simp only [Option.some_bind]
            rw [ih i (j - 1) (by omega) (by omega),
              if_neg (fun h => absurd h.1 (by omega)),
              if_pos ⟨hjp, Or.inl hi0⟩]
            rfl
          · have hip : 0 < i := by omega
            rw [if_neg hjp,
              getElem?_eq_some_getD b (i - 1) (by omega)]
            simp only [Option.some_bind]
            rw [ih (i - 1) j (by omega) (by omega),
              if_neg (fun h => absurd h.2.1 (by omega)),
              if_neg (fun h => absurd h.1 (by omega)),
              if_pos hip]
            rfl

/-- C8: `computeLineDiff` is total — on every input pair the table fill and
the backtracking terminate (the embedding is structurally recursive on the
budget `i + j`, which the loop strictly decreases), every array and table
access along the way is in bounds, and the checked evaluation returns the
result without error. -/
theorem computeLineDiff_total (b a : List String) :
    computeLineDiffChecked b a = some (computeLineDiff b a) := by
  unfold computeLineDiffChecked computeLineDiff backtrack
  rw [backtrackCAux_eq b a (b.length + a.length) b.length a.length
    (le_refl _) (le_refl _)]
  rfl

end LogViewer
